import Mathlib

/-!
# Verification of the ekko-demo hierarchical role/user management backend

Shallow embedding of the backend handlers of the `bugzbuks/ekko-demo`
repository (`backend/src/handlers/**`, `backend/src/lib/dynamo.ts`, plus the
additional handler revisions shipped in the repository dump: the summary
handler, the `getUsers` revision that strips the caller, and the `createRole`
revision with the permission check).

Conventions of the embedding:
* DynamoDB tables are in-memory lists: the Roles table is a `List Role`,
  the Users table a `List User`.
* `queryRolesByParent` (the `ParentIndex` GSI lookup) becomes `childIds` /
  `childRoles`.
* The recursive hierarchy traversals (`buildManageableRoles`,
  `buildAssignable`, `buildAccessible`, `getDescendants`) are all instances
  of one visited-guarded depth-first worklist; it is embedded as the
  step-indexed function `runVisit` which returns the list of expanded node
  ids (`none` if the step budget runs out).  `runVisit_total` proves the
  explicit budget `visitFuel` always suffices, for every graph, cyclic or
  not, so the `.getD []` fallback in `visitTrace` is unreachable.
* The caller context produced by `getCallerDetails` / the Cognito claims is
  the structure `Caller`; all handlers are modelled for resolved
  (authenticated) caller contexts, which is the domain the claims quantify
  over.
* Effectful failures (DynamoDB delete errors, Cognito outcomes) and the
  generated uuid are passed as explicit parameters.
-/

namespace Ekko

/-- A record of the Roles table (`{id, roleType, name, parentId}`).
`parentId = none` models a JSON `null` (the old `createRole` stores
`parentId || null`); the newer handlers store the sentinel string `"ROOT"`. -/
structure Role where
  id : String
  roleType : String
  name : String
  parentId : Option String
deriving DecidableEq, Repr

/-- A record of the Users table (`{email, name, roles, isRootAdmin}`). -/
structure User where
  email : String
  name : String
  roles : List String
  isRootAdmin : Bool
deriving DecidableEq, Repr

/-- The resolved caller context (from `getCallerDetails` / Cognito custom
claims `custom:roles`, `custom:isRootAdmin`, `email`). -/
structure Caller where
  email : String
  roles : List String
  isRootAdmin : Bool
deriving DecidableEq, Repr

/-- `TOP_LEVEL_PARENT_ID` sentinel. -/
def topLevel : String := "ROOT"

/-- `ROOT_ROLE_ID` of the seed script. -/
def rootRoleId : String := "SYSTEM_ROOT"

/-- `ROOT_ADMIN_EMAIL` of the seed script. -/
def rootAdminEmail : String := "root@system.app"

/-- `queryRolesByParent pid` restricted to the ids (the traversals only use
`child.id`; the summary handler even projects on `id`). -/
def childIds (g : List Role) (pid : String) : List String :=
  (g.filter (fun r => r.parentId == some pid)).map Role.id

/-- The direct child records, as returned by `queryRolesByParent`. -/
def childRoles (g : List Role) (pid : String) : List Role :=
  g.filter (fun r => r.parentId == some pid)

/-- The edge relation of the stored parent-pointer graph: `step g a b` holds
when role `b` is stored with `parentId = a`. -/
def step (g : List Role) (a b : String) : Prop :=
  b ∈ childIds g a

/-- The ids present in the Roles table. -/
def roleIds (g : List Role) : Finset String :=
  (g.map Role.id).toFinset

/-- Step-indexed interpreter of the visited-guarded depth-first traversal
shared by every hierarchy walk in the source
(`buildManageableRoles` in deleteRole.ts / deleteUser.ts, `buildAssignable`
in updateRole.ts / createUser.ts / updateUser.ts, `buildAccessible` in
getUsers.ts, `getDescendants` in summary.ts).  The result is the list of
node ids that get expanded (pass the `visited` guard and have their children
fetched), in order; each expansion consumes one step of `fuel` and pushes
the node's children on the worklist.  `skipEmpty` models the `!roleId`
falsy-guard present in some of the variants.  `none` means the step budget
was exhausted; `runVisit_total` shows the budget `visitFuel` always
suffices. -/
def runVisit (g : List Role) (skipEmpty : Bool) :
    Nat → List String → Finset String → Option (List String)
  | _, [], _ => some []
  | 0, _ :: _, _ => none
  | fuel + 1, id :: stack, visited =>
    if (skipEmpty ∧ id = "") ∨ id ∈ visited then
      runVisit g skipEmpty fuel stack visited
    else
      (runVisit g skipEmpty fuel (childIds g id ++ stack) (insert id visited)).map
        (fun tr => id :: tr)

/-- A step budget sufficient for `runVisit` on any graph (cyclic included):
the worklist starts with `seeds.length` entries and every expansion adds a
new id to `visited ⊆ roleIds g ∪ seeds`, pushing at most `g.length`
children. -/
def visitFuel (g : List Role) (seeds : List String) : Nat :=
  seeds.length + (roleIds g ∪ seeds.toFinset).card * (g.length + 1)

theorem childIds_length_le (g : List Role) (pid : String) :
    (childIds g pid).length ≤ g.length := by
  simpa [childIds] using List.length_filter_le _ g

theorem childIds_subset_roleIds (g : List Role) (pid : String) :
    ∀ x ∈ childIds g pid, x ∈ roleIds g := by
  intro x hx
  simp only [childIds, List.mem_map, List.mem_filter] at hx
  obtain ⟨r, ⟨hr, _⟩, rfl⟩ := hx
  simp [roleIds, List.mem_map]
  exact ⟨r, hr, rfl⟩

/-- The step budget `|stack| + |U \ visited| * (|g|+1)` (with
`U = roleIds g ∪ stack`) suffices: the traversal finishes. -/
theorem runVisit_isSome (g : List Role) (skipEmpty : Bool) :
    ∀ fuel stack visited,
      stack.length + ((roleIds g ∪ stack.toFinset) \ visited).card * (g.length + 1) ≤ fuel →
      (runVisit g skipEmpty fuel stack visited).isSome := by
  intro fuel
  induction fuel with
  | zero =>
    intro stack visited h
    have hlen : stack.length = 0 := by omega
    rw [List.length_eq_zero] at hlen
    subst hlen
    simp [runVisit]
  | succ fuel ih =>
    intro stack visited h
    match stack with
    | [] => simp [runVisit]
    | id :: rest =>
      by_cases hguard : (skipEmpty ∧ id = "") ∨ id ∈ visited
      · rw [runVisit, if_pos hguard]
        apply ih
        have hsub : (roleIds g ∪ rest.toFinset) \ visited ⊆
            (roleIds g ∪ (id :: rest).toFinset) \ visited := by
          apply Finset.sdiff_subset_sdiff _ le_rfl
          apply Finset.union_subset_union_right
          intro x hx
          simp only [List.toFinset_cons, Finset.mem_insert]
          exact Or.inr hx
        have hcard := Finset.card_le_card hsub
        have hmul := Nat.mul_le_mul_right (g.length + 1) hcard
        simp only [List.length_cons] at h
        omega
      · rw [runVisit, if_neg hguard]
        push_neg at hguard
        have hidvis : id ∉ visited := hguard.2
        have hidU : id ∈ (roleIds g ∪ (id :: rest).toFinset) \ visited := by
          simp [Finset.mem_sdiff, hidvis]
        -- the new unvisited set is strictly smaller
        have hsub : (roleIds g ∪ (childIds g id ++ rest).toFinset) \ insert id visited ⊆
            ((roleIds g ∪ (id :: rest).toFinset) \ visited).erase id := by
          intro x hx
          simp only [Finset.mem_sdiff, Finset.mem_union, Finset.mem_insert,
            List.mem_toFinset, List.mem_append, List.mem_cons, Finset.mem_erase] at hx ⊢
          push_neg at hx
          refine ⟨hx.2.1, ?_, hx.2.2⟩
          rcases hx.1 with hx1 | hx1 | hx1
          · exact Or.inl hx1
          · exact Or.inl (childIds_subset_roleIds g id x hx1)
          · exact Or.inr (Or.inr hx1)
        have hcard : ((roleIds g ∪ (childIds g id ++ rest).toFinset) \ insert id visited).card ≤
            ((roleIds g ∪ (id :: rest).toFinset) \ visited).card - 1 := by
          calc _ ≤ (((roleIds g ∪ (id :: rest).toFinset) \ visited).erase id).card :=
                Finset.card_le_card hsub
            _ = ((roleIds g ∪ (id :: rest).toFinset) \ visited).card - 1 :=
                Finset.card_erase_of_mem hidU
        have hpos : 1 ≤ ((roleIds g ∪ (id :: rest).toFinset) \ visited).card :=
          Finset.card_pos.mpr ⟨id, hidU⟩
        have hchild : (childIds g id).length ≤ g.length := childIds_length_le g id
        have harith : (childIds g id ++ rest).length +
            ((roleIds g ∪ (childIds g id ++ rest).toFinset) \ insert id visited).card *
              (g.length + 1) ≤ fuel := by
          set a := ((roleIds g ∪ (id :: rest).toFinset) \ visited).card with ha
          set b := ((roleIds g ∪ (childIds g id ++ rest).toFinset) \ insert id visited).card
            with hb
          have hmul : b * (g.length + 1) + (g.length + 1) ≤ a * (g.length + 1) := by
            have h1 : b + 1 ≤ a := by omega
            calc b * (g.length + 1) + (g.length + 1) = (b + 1) * (g.length + 1) := by ring
              _ ≤ a * (g.length + 1) := Nat.mul_le_mul_right _ h1
          simp only [List.length_cons] at h
          simp only [List.length_append]
          omega
        have hs := ih _ _ harith
        obtain ⟨tr, htr⟩ := Option.isSome_iff_exists.mp hs
        simp [htr]

/-- **Termination of the hierarchy traversals.**  With the explicit finite
budget `visitFuel`, the traversal completes on every graph. -/
theorem runVisit_total (g : List Role) (skipEmpty : Bool) (seeds : List String) :
    (runVisit g skipEmpty (visitFuel g seeds) seeds ∅).isSome := by
  apply runVisit_isSome
  simp [visitFuel]

/-- The list of expanded node ids of the traversal started on `seeds`
(the final `visited` set, as a list, in expansion order).  By
`runVisit_total` the `.getD []` default is never used. -/
def visitTrace (g : List Role) (skipEmpty : Bool) (seeds : List String) : List String :=
  (runVisit g skipEmpty (visitFuel g seeds) seeds ∅).getD []

theorem runVisit_visitTrace (g : List Role) (skipEmpty : Bool) (seeds : List String) :
    runVisit g skipEmpty (visitFuel g seeds) seeds ∅ =
      some (visitTrace g skipEmpty seeds) := by
  obtain ⟨tr, htr⟩ := Option.isSome_iff_exists.mp (runVisit_total g skipEmpty seeds)
  rw [visitTrace, htr]
  rfl

/-- Soundness: every expanded id is reachable (along stored parent pointers,
downward) from some worklist entry. -/
theorem runVisit_sound (g : List Role) (skipEmpty : Bool) :
    ∀ fuel stack visited tr, runVisit g skipEmpty fuel stack visited = some tr →
      ∀ x ∈ tr, ∃ s ∈ stack, Relation.ReflTransGen (step g) s x := by
  intro fuel
  induction fuel with
  | zero =>
    intro stack visited tr h x hx
    match stack with
    | [] => simp [runVisit] at h; subst h; simp at hx
    | _ :: _ => simp [runVisit] at h
  | succ fuel ih =>
    intro stack visited tr h x hx
    match stack with
    | [] =>
      simp [runVisit] at h; subst h; simp at hx
    | id :: rest =>
      by_cases hguard : (skipEmpty = true ∧ id = "") ∨ id ∈ visited
      · rw [runVisit, if_pos hguard] at h
        obtain ⟨s, hs, hreach⟩ := ih rest visited tr h x hx
        exact ⟨s, List.mem_cons_of_mem _ hs, hreach⟩
      · rw [runVisit, if_neg hguard] at h
        obtain ⟨tr', htr', rfl⟩ := Option.map_eq_some'.mp h
        rcases List.mem_cons.mp hx with rfl | hx'
        · exact ⟨x, List.mem_cons_self _ _, Relation.ReflTransGen.refl⟩
        · obtain ⟨s, hs, hreach⟩ := ih _ _ tr' htr' x hx'
          rcases List.mem_append.mp hs with hcs | hrest
          · exact ⟨id, List.mem_cons_self _ _, Relation.ReflTransGen.head hcs hreach⟩
          · exact ⟨s, List.mem_cons_of_mem _ hrest, hreach⟩

/-- Every worklist entry (that the falsy-guard does not skip) ends up
visited: in the final state it is in `visited` or in the trace. -/
theorem runVisit_mem_of_stack (g : List Role) (skipEmpty : Bool) :
    ∀ fuel stack visited tr, runVisit g skipEmpty fuel stack visited = some tr →
      ∀ s ∈ stack, ¬(skipEmpty = true ∧ s = "") → s ∈ visited ∨ s ∈ tr := by
  intro fuel
  induction fuel with
  | zero =>
    intro stack visited tr h s hs _
    match stack with
    | [] => simp at hs
    | _ :: _ => simp [runVisit] at h
  | succ fuel ih =>
    intro stack visited tr h s hs hsne
    match stack with
    | [] => simp at hs
    | id :: rest =>
      by_cases hguard : (skipEmpty = true ∧ id = "") ∨ id ∈ visited
      · rw [runVisit, if_pos hguard] at h
        rcases List.mem_cons.mp hs with rfl | hs'
        · rcases hguard with hemp | hvis
          · exact absurd hemp hsne
          · exact Or.inl hvis
        · exact ih rest visited tr h s hs' hsne
      · rw [runVisit, if_neg hguard] at h
        obtain ⟨tr', htr', rfl⟩ := Option.map_eq_some'.mp h
        rcases List.mem_cons.mp hs with rfl | hs'
        · exact Or.inr (List.mem_cons_self _ _)
        · have := ih _ _ tr' htr' s (List.mem_append_right _ hs') hsne
          rcases this with hvis | htr
          · rcases Finset.mem_insert.mp hvis with rfl | hvis'
            · exact Or.inr (List.mem_cons_self _ _)
            · exact Or.inl hvis'
          · exact Or.inr (List.mem_cons_of_mem _ htr)

/-- Closure: in the final state, the children of every visited node are
themselves visited (or skipped by the falsy-guard), provided the children
of the initially-visited nodes were already accounted for. -/
theorem runVisit_closed (g : List Role) (skipEmpty : Bool) :
    ∀ fuel stack visited tr, runVisit g skipEmpty fuel stack visited = some tr →
      (∀ v ∈ visited, ∀ c ∈ childIds g v,
        (skipEmpty = true ∧ c = "") ∨ c ∈ visited ∨ c ∈ stack) →
      ∀ p, (p ∈ visited ∨ p ∈ tr) → ∀ c ∈ childIds g p,
        (skipEmpty = true ∧ c = "") ∨ c ∈ visited ∨ c ∈ tr := by
  intro fuel
  induction fuel with
  | zero =>
    intro stack visited tr h hinv p hp c hc
    match stack with
    | [] =>
      simp [runVisit] at h; subst h
      simp only [List.not_mem_nil, or_false] at hp
      rcases hinv p hp c hc with he | hv | hs
      · exact Or.inl he
      · exact Or.inr (Or.inl hv)
      · simp at hs
    | _ :: _ => simp [runVisit] at h
  | succ fuel ih =>
    intro stack visited tr h hinv p hp c hc
    match stack with
    | [] =>
      simp [runVisit] at h; subst h
      simp only [List.not_mem_nil, or_false] at hp
      rcases hinv p hp c hc with he | hv | hs
      · exact Or.inl he
      · exact Or.inr (Or.inl hv)
      · simp at hs
    | id :: rest =>
      by_cases hguard : (skipEmpty = true ∧ id = "") ∨ id ∈ visited
      · rw [runVisit, if_pos hguard] at h
        have hinv' : ∀ v ∈ visited, ∀ c ∈ childIds g v,
            (skipEmpty = true ∧ c = "") ∨ c ∈ visited ∨ c ∈ rest := by
          intro v hv c' hc'
          rcases hinv v hv c' hc' with he | hvv | hss
          · exact Or.inl he
          · exact Or.inr (Or.inl hvv)
          · rcases List.mem_cons.mp hss with rfl | hss'
            · rcases hguard with hemp | hvis
              · exact Or.inl hemp
              · exact Or.inr (Or.inl hvis)
            · exact Or.inr (Or.inr hss')
        exact ih rest visited tr h hinv' p hp c hc
      · rw [runVisit, if_neg hguard] at h
        obtain ⟨tr', htr', rfl⟩ := Option.map_eq_some'.mp h
        have hinv' : ∀ v ∈ insert id visited, ∀ c ∈ childIds g v,
            (skipEmpty = true ∧ c = "") ∨ c ∈ insert id visited ∨
              c ∈ childIds g id ++ rest := by
          intro v hv c' hc'
          rcases Finset.mem_insert.mp hv with rfl | hv'
          · exact Or.inr (Or.inr (List.mem_append_left _ hc'))
          · rcases hinv v hv' c' hc' with he | hvv | hss
            · exact Or.inl he
            · exact Or.inr (Or.inl (Finset.mem_insert_of_mem hvv))
            · rcases List.mem_cons.mp hss with rfl | hss'
              · exact Or.inr (Or.inl (Finset.mem_insert_self _ _))
              · exact Or.inr (Or.inr (List.mem_append_right _ hss'))
        have hp' : p ∈ insert id visited ∨ p ∈ tr' := by
          rcases hp with hpv | hpt
          · exact Or.inl (Finset.mem_insert_of_mem hpv)
          · rcases List.mem_cons.mp hpt with rfl | hpt'
            · exact Or.inl (Finset.mem_insert_self _ _)
            · exact Or.inr hpt'
        rcases ih _ _ tr' htr' hinv' p hp' c hc with he | hv | ht
        · exact Or.inl he
        · rcases Finset.mem_insert.mp hv with rfl | hv'
          · exact Or.inr (Or.inr (List.mem_cons_self _ _))
          · exact Or.inr (Or.inl hv')
        · exact Or.inr (Or.inr (List.mem_cons_of_mem _ ht))

/-- No id is expanded twice: the `visited` guard makes the trace duplicate
free (each node's children are fetched at most once). -/
theorem runVisit_nodup (g : List Role) (skipEmpty : Bool) :
    ∀ fuel stack visited tr, runVisit g skipEmpty fuel stack visited = some tr →
      tr.Nodup ∧ ∀ x ∈ tr, x ∉ visited := by
  intro fuel
  induction fuel with
  | zero =>
    intro stack visited tr h
    match stack with
    | [] => simp [runVisit] at h; subst h; simp
    | _ :: _ => simp [runVisit] at h
  | succ fuel ih =>
    intro stack visited tr h
    match stack with
    | [] => simp [runVisit] at h; subst h; simp
    | id :: rest =>
      by_cases hguard : (skipEmpty = true ∧ id = "") ∨ id ∈ visited
      · rw [runVisit, if_pos hguard] at h
        exact ih rest visited tr h
      · rw [runVisit, if_neg hguard] at h
        obtain ⟨tr', htr', rfl⟩ := Option.map_eq_some'.mp h
        obtain ⟨hnd, hvis⟩ := ih _ _ tr' htr'
        push_neg at hguard
        constructor
        · refine List.nodup_cons.mpr ⟨fun hmem => ?_, hnd⟩
          exact hvis id hmem (Finset.mem_insert_self _ _)
        · intro x hx
          rcases List.mem_cons.mp hx with rfl | hx'
          · exact hguard.2
          · intro hxv
            exact hvis x hx' (Finset.mem_insert_of_mem hxv)

/-- Characterisation of the unguarded traversal (the `summary.ts`
`getDescendants` loop): an id is visited iff it is reachable from a seed by
following child edges zero or more times. -/
theorem mem_visitTrace_iff (g : List Role) (seeds : List String) (x : String) :
    x ∈ visitTrace g false seeds ↔
      ∃ s ∈ seeds, Relation.ReflTransGen (step g) s x := by
  constructor
  · intro hx
    exact runVisit_sound g false _ seeds ∅ _ (runVisit_visitTrace g false seeds) x hx
  · rintro ⟨s, hs, hreach⟩
    have htr := runVisit_visitTrace g false seeds
    induction hreach with
    | refl =>
      have := runVisit_mem_of_stack g false _ seeds ∅ _ htr s hs (by simp)
      simpa using this
    | tail hab hbc ihr =>
      have hb := ihr
      have hclosed := runVisit_closed g false _ seeds ∅ _ htr
        (by intro v hv; simp at hv) _ (Or.inr hb) _ hbc
      simpa using hclosed

/-- The `manageable` / `assignable` accumulator: for every expanded node,
all of its children's ids are added (`manageableRoles.add(child.id)` /
`assignableRoles.add(child.id)` inside the `for (const child of children)`
loop). -/
def manageableOf (g : List Role) (tr : List String) : Finset String :=
  tr.foldl (fun m p => m ∪ (childIds g p).toFinset) ∅

/-- `buildManageableRoles` of deleteRole.ts (and, under the name
`buildAssignable`, of updateRole.ts, createUser.ts and updateUser.ts):
falsy-guarded DFS from the caller's held roles, collecting every child id
encountered.  The seeds themselves are collected only if the graph loops
back onto them. -/
def buildManageableRoles (g : List Role) (callerRoles : List String) : Finset String :=
  manageableOf g (visitTrace g true callerRoles)

/-- `buildManageableRoles` of deleteUser.ts: same DFS, but its guard is
`visited.has(roleId)` only (no falsy check). -/
def manageableRolesDeleteUser (g : List Role) (callerRoles : List String) : Finset String :=
  manageableOf g (visitTrace g false callerRoles)

/-- `buildAccessible` of getUsers.ts: falsy-guarded DFS collecting every
visited id — the caller's own roles are included
(`accessibleRoles.add(roleId)` right after `visited.add(roleId)`). -/
def accessibleRoles (g : List Role) (callerRoles : List String) : Finset String :=
  (visitTrace g true callerRoles).toFinset

/-- `getDescendants` of summary.ts: unguarded worklist traversal; at the
end the seed roles are removed from the visited set
(`userRoles.forEach(r => visited.delete(r))`) and the set is returned as an
array (`Array.from(visited)`) — here the duplicate-free trace list with the
seeds filtered out. -/
def getDescendantsList (g : List Role) (userRoles : List String) : List String :=
  (visitTrace g false userRoles).filter (fun x => decide (x ∉ userRoles))

/-- `getDescendants` of summary.ts, as a finite set. -/
def getDescendants (g : List Role) (userRoles : List String) : Finset String :=
  (visitTrace g false userRoles).toFinset \ userRoles.toFinset

theorem mem_foldl_union (g : List Role) (x : String) :
    ∀ (tr : List String) (init : Finset String),
      x ∈ tr.foldl (fun m p => m ∪ (childIds g p).toFinset) init ↔
        x ∈ init ∨ ∃ p ∈ tr, x ∈ childIds g p := by
  intro tr
  induction tr with
  | nil => simp
  | cons p rest ih =>
    intro init
    rw [List.foldl_cons, ih]
    simp only [Finset.mem_union, List.mem_toFinset, List.mem_cons]
    constructor
    · rintro ((hi | hc) | ⟨q, hq, hxq⟩)
      · exact Or.inl hi
      · exact Or.inr ⟨p, Or.inl rfl, hc⟩
      · exact Or.inr ⟨q, Or.inr hq, hxq⟩
    · rintro (hi | ⟨q, (rfl | hq), hxq⟩)
      · exact Or.inl (Or.inl hi)
      · exact Or.inl (Or.inr hxq)
      · exact Or.inr ⟨q, hq, hxq⟩

theorem mem_manageableOf (g : List Role) (tr : List String) (x : String) :
    x ∈ manageableOf g tr ↔ ∃ p ∈ tr, x ∈ childIds g p := by
  rw [manageableOf, mem_foldl_union]
  simp

/-- Everything in the guarded manageable set lies strictly below some seed
(at least one child edge away). -/
theorem mem_buildManageableRoles_transGen (g : List Role) (seeds : List String)
    (x : String) (hx : x ∈ buildManageableRoles g seeds) :
    ∃ s ∈ seeds, Relation.TransGen (step g) s x := by
  rw [buildManageableRoles, mem_manageableOf] at hx
  obtain ⟨p, hp, hxp⟩ := hx
  obtain ⟨s, hs, hreach⟩ := runVisit_sound g true _ seeds ∅ _
    (runVisit_visitTrace g true seeds) p hp
  exact ⟨s, hs, Relation.TransGen.tail' hreach hxp⟩

/-! ## Role directory handlers -/

/-- JS whitespace (the characters relevant to `String.prototype.trim()`). -/
def isWS (c : Char) : Bool := c = ' ' ∨ c = '\t' ∨ c = '\n' ∨ c = '\r'

/-- `String.prototype.trim()`: strip leading and trailing whitespace. -/
def jsTrim (s : String) : String :=
  ⟨((s.data.dropWhile isWS).reverse.dropWhile isWS).reverse⟩

/-- The parsed JSON body of the create-role endpoints; `""` models a missing
or falsy string field, `none` an absent or `null` `parentId`. -/
structure CreateRoleBody where
  roleType : String
  name : String
  parentId : Option String
deriving DecidableEq, Repr

/-- `parentId → effective parent`: `null`/absent/`''` map to the
`TOP_LEVEL_PARENT_ID` sentinel (`existing.parentId || TOP_LEVEL_PARENT_ID`
and the ternary in updateRole.ts / createRole.ts rev. 2). -/
def effParent : Option String → String
  | none => topLevel
  | some p => if p = "" then topLevel else p

inductive CreateRoleOldResult
  | validationError              -- 400 "roleType and name required"
  | created (r : Role)           -- 201
deriving DecidableEq, Repr

/-- `handler` of `src/backend/src/handlers/roles/createRole.ts` (the revision
without any caller/permission logic): after the two falsy checks it
unconditionally persists the new role.  `newId` stands for the generated
`uuid()`; `parentId || null` turns `''` into `null`. -/
def createRoleOldHandler (body : CreateRoleBody) (newId : String) (g : List Role) :
    CreateRoleOldResult × List Role :=
  if body.roleType = "" ∨ body.name = "" then (.validationError, g)
  else
    let item : Role := ⟨newId, body.roleType, body.name,
      match body.parentId with
      | none => none
      | some p => if p = "" then none else some p⟩
    (.created item, g ++ [item])

inductive CreateRoleResult
  | validationError              -- 400
  | forbiddenTopLevel            -- 403 non-root creating a top-level role
  | forbiddenParent              -- 403 caller does not possess the parent
  | created (r : Role)           -- 201
deriving DecidableEq, Repr

/-- `handler` of the createRole.ts revision with the permission check
(`src/handlers/roles/createRole.ts`, repository dump part_013): non-root
callers are rejected for a `TOP_LEVEL` parent and otherwise must *directly
possess* the parent role (`callerRoles.includes(effectiveParentId)`). -/
def createRoleHandler (caller : Caller) (body : CreateRoleBody) (newId : String)
    (g : List Role) : CreateRoleResult × List Role :=
  if jsTrim body.roleType = "" ∨ jsTrim body.name = "" then (.validationError, g)
  else
    let effectiveParentId := effParent body.parentId
    if ¬caller.isRootAdmin ∧ effectiveParentId = topLevel then (.forbiddenTopLevel, g)
    else if ¬caller.isRootAdmin ∧ effectiveParentId ∉ caller.roles then (.forbiddenParent, g)
    else
      let item : Role := ⟨newId, jsTrim body.roleType, jsTrim body.name, some effectiveParentId⟩
      (.created item, g ++ [item])

inductive UpdateRoleResult
  | missingId                    -- 400 no path parameter
  | protectedRoot                -- 403 cannot modify SYSTEM_ROOT
  | validationError              -- 400 name / roleType
  | selfParent                   -- 400 a role cannot be its own parent
  | notFound                     -- 404 target role absent
  | parentNotFound               -- 400 new parent does not exist
  | forbidden                    -- 403 permission denied
  | updated (r : Role)           -- 200
deriving DecidableEq, Repr

/-- `handler` of `src/backend/src/handlers/roles/updateRole.ts`.  The
non-root permission checks accept the current/new parent if it is one of
the caller's *own* roles or in the assignable (descendant) set
(`callerRoles.includes(p) || assignableRoles.has(p)`); a `TOP_LEVEL`
current or new parent is always refused to non-root callers. -/
def updateRoleHandler (caller : Caller) (roleIdToUpdate : String)
    (newName newRoleType : String) (newParentIdInput : Option String)
    (g : List Role) : UpdateRoleResult × List Role :=
  if roleIdToUpdate = "" then (.missingId, g)
  else if roleIdToUpdate = rootRoleId then (.protectedRoot, g)
  else if jsTrim newName = "" ∨ jsTrim newRoleType = "" then (.validationError, g)
  else
    let newParentId := effParent newParentIdInput
    if roleIdToUpdate = newParentId then (.selfParent, g)
    else
      match g.find? (fun r => r.id == roleIdToUpdate) with
      | none => (.notFound, g)
      | some existingRole =>
        let currentParentId := effParent existingRole.parentId
        if newParentId ≠ topLevel ∧ g.find? (fun r => r.id == newParentId) = none then
          (.parentNotFound, g)
        else if caller.isRootAdmin = true ∨
            ((currentParentId ≠ topLevel ∧
              (currentParentId ∈ caller.roles ∨
               currentParentId ∈ buildManageableRoles g caller.roles)) ∧
             (newParentId ≠ topLevel ∧
              (newParentId ∈ caller.roles ∨
               newParentId ∈ buildManageableRoles g caller.roles))) then
          (.updated ⟨existingRole.id, newRoleType, newName, some newParentId⟩,
           g.map (fun r => if r.id = roleIdToUpdate then
              ⟨r.id, newRoleType, newName, some newParentId⟩ else r))
        else (.forbidden, g)

inductive DeleteRoleResult
  | missingId                    -- 400
  | protectedRoot                -- 403 cannot delete SYSTEM_ROOT
  | notFound                     -- 404
  | forbidden                    -- 403 not downstream of the caller's roles
  | conflict (childRoleIds : List String)  -- 409 role has children
  | deleted                      -- 200
deriving DecidableEq, Repr

/-- `handler` of `src/backend/src/handlers/roles/deleteRole.ts`: root check,
existence check, permission check (root admin, or the target in the
caller's downstream set), then the child-role safety check which applies to
every caller, and finally the DynamoDB delete. -/
def deleteRoleHandler (caller : Caller) (roleIdToDelete : String) (g : List Role) :
    DeleteRoleResult × List Role :=
  if roleIdToDelete = "" then (.missingId, g)
  else if roleIdToDelete = rootRoleId then (.protectedRoot, g)
  else
    match g.find? (fun r => r.id == roleIdToDelete) with
    | none => (.notFound, g)
    | some _ =>
      if caller.isRootAdmin = true ∨
          roleIdToDelete ∈ buildManageableRoles g caller.roles then
        let children := childRoles g roleIdToDelete
        if children.length > 0 then (.conflict (children.map Role.id), g)
        else (.deleted, g.filter (fun r => r.id != roleIdToDelete))
      else (.forbidden, g)

/-! ## User directory handlers -/

/-- DynamoDB `PutCommand` upsert semantics on the e-mail key. -/
def putUser (users : List User) (u : User) : List User :=
  if users.any (fun v => v.email == u.email) then
    users.map (fun v => if v.email = u.email then u else v)
  else users ++ [u]

structure CreateUserBody where
  email : String
  name : String
  roles : List String
deriving DecidableEq, Repr

inductive CreateUserResult
  | validationError              -- 400 email/name/roles shape
  | emptyRoles                   -- 400 at least one role required
  | forbiddenRole (role : String)  -- 403 first role outside the hierarchy
  | created (u : User)           -- 201
deriving DecidableEq, Repr

/-- `handler` of `src/backend/src/handlers/users/createUser.ts`: validates,
checks (for non-root callers) that every requested role is in the
assignable downstream set, then **upserts** `{email, name, roles,
isRootAdmin: false}` via a `PutCommand` — replacing any existing record
with that e-mail, the seeded root-admin record included. -/
def createUserHandler (caller : Caller) (body : CreateUserBody)
    (users : List User) (g : List Role) : CreateUserResult × List User :=
  if body.email = "" ∨ body.name = "" then (.validationError, users)
  else if body.roles = [] then (.emptyRoles, users)
  else if caller.isRootAdmin then
    let userItem : User := ⟨body.email, body.name, body.roles, false⟩
    (.created userItem, putUser users userItem)
  else
    match body.roles.find? (fun r => decide (r ∉ buildManageableRoles g caller.roles)) with
    | some r => (.forbiddenRole r, users)
    | none =>
      let userItem : User := ⟨body.email, body.name, body.roles, false⟩
      (.created userItem, putUser users userItem)

/-- JS `array.sort()` on a string array: the canonical sorted order used by
the root-admin `rolesChanged` comparison
(`JSON.stringify(currentRoles.sort()) !== JSON.stringify([...newRoles].sort())`;
equality of the stringified sorted arrays is equality of the sorted lists). -/
def sortRoles (l : List String) : List String :=
  List.insertionSort (· ≤ ·) l

inductive UpdateUserResult
  | missingEmail                 -- 400
  | validationError              -- 400 name / roles
  | notFound                     -- 404
  | rootProtected                -- 403 roles of the root admin are frozen
  | forbidden                    -- 403
  | updated (u : User)           -- 200
deriving DecidableEq, Repr

/-- `handler` of `src/backend/src/handlers/users/updateUser.ts`: validation,
404 on a missing record, the root-admin guard (role changes to
`root@system.app` are refused, name-only edits pass), the non-root
permission checks over the current and the new role set, then an
`UpdateCommand` that overwrites only `name` and `roles`. -/
def updateUserHandler (caller : Caller) (targetEmail newName : String)
    (newRoles : List String) (users : List User) (g : List Role) :
    UpdateUserResult × List User :=
  if targetEmail = "" then (.missingEmail, users)
  else if jsTrim newName = "" then (.validationError, users)
  else if newRoles = [] then (.validationError, users)
  else
    match users.find? (fun u => u.email == targetEmail) with
    | none => (.notFound, users)
    | some existingUser =>
      let currentRoles := existingUser.roles
      if targetEmail = rootAdminEmail ∧ sortRoles currentRoles ≠ sortRoles newRoles then
        (.rootProtected, users)
      else if caller.isRootAdmin = true ∨
          (currentRoles ≠ [] ∧
           (∀ r ∈ currentRoles, r ∈ buildManageableRoles g caller.roles) ∧
           (∀ r ∈ newRoles, r ∈ buildManageableRoles g caller.roles)) then
        (.updated ⟨targetEmail, newName, newRoles, existingUser.isRootAdmin⟩,
         users.map (fun u => if u.email = targetEmail then
            { u with name := newName, roles := newRoles } else u))
      else (.forbidden, users)

/-- Outcome of the `AdminDeleteUserCommand` call against Cognito. -/
inductive CognitoOutcome
  | ok                           -- account deleted
  | userNotFound                 -- UserNotFoundException (already absent)
  | otherError                   -- any other Cognito error
deriving DecidableEq, Repr

inductive DeleteUserResult
  | missingEmail                 -- 400
  | rootProtected                -- 403 cannot delete root@system.app
  | forbiddenNoRoles             -- 403 non-root deleting a role-less user
  | forbidden                    -- 403 target outside the hierarchy
  | dbError                      -- 500 DynamoDB delete failed, aborted
  | fullyDeleted                 -- 200 both stores clean
  | multiStatus                  -- 207 directory clean, Cognito failed
deriving DecidableEq, Repr

/-- `handler` of `src/backend/src/handlers/users/deleteUser.ts`.
`dynamoOk` is the outcome of the `DeleteCommand` (false = throws), `cognito`
the outcome of the Cognito `AdminDeleteUserCommand`; the third component of
the result records whether the Cognito delete was attempted at all.  The
DynamoDB delete runs first and a failure aborts before Cognito is touched;
a Cognito `UserNotFoundException` is treated as success; any other Cognito
error after a successful DynamoDB delete yields the 207 multi-status. -/
def deleteUserHandler (caller : Caller) (targetEmail : String) (users : List User)
    (g : List Role) (dynamoOk : Bool) (cognito : CognitoOutcome) :
    DeleteUserResult × List User × Bool :=
  if targetEmail = "" then (.missingEmail, users, false)
  else if targetEmail = rootAdminEmail then (.rootProtected, users, false)
  else
    let finish : List User → DeleteUserResult × List User × Bool := fun users' =>
      match cognito with
      | .ok => (.fullyDeleted, users', true)
      | .userNotFound => (.fullyDeleted, users', true)
      | .otherError => (.multiStatus, users', true)
    match users.find? (fun u => u.email == targetEmail) with
    | some targetUser =>
      if ¬caller.isRootAdmin ∧ targetUser.roles = [] then (.forbiddenNoRoles, users, false)
      else if ¬caller.isRootAdmin ∧
          ¬(∀ r ∈ targetUser.roles, r ∈ manageableRolesDeleteUser g caller.roles) then
        (.forbidden, users, false)
      else if dynamoOk then finish (users.filter (fun u => u.email != targetEmail))
      else (.dbError, users, false)
    | none => finish users

inductive GetUserDetailsResult
  | missingEmail                 -- 400
  | ok (email name : String) (roles : List String) (isRootAdmin found : Bool)  -- 200
deriving DecidableEq, Repr

/-- `handler` of `src/backend/src/handlers/users/getUserDetails.ts`: no
caller context is consulted at all (the endpoint requires no
authentication); a missing record still yields a 200 response with empty
roles, `isRootAdmin = false` and `found = false`. -/
def getUserDetailsHandler (users : List User) (targetEmail : String) :
    GetUserDetailsResult :=
  if targetEmail = "" then .missingEmail
  else
    match users.find? (fun u => u.email == targetEmail) with
    | none => .ok targetEmail "" [] false false
    | some u => .ok u.email u.name u.roles u.isRootAdmin true

/-! ## Listing and summary -/

/-- DynamoDB `ScanCommand` over the Users table: reads a window of `limit`
items starting at the cursor, *then* applies the filter expression to that
window; `LastEvaluatedKey` (the resume cursor) is returned whenever the
window did not exhaust the table, regardless of how many items survive the
filter. -/
def scanUsers (users : List User) (pred : User → Bool) (limit start : Nat) :
    List User × Option Nat :=
  (((users.drop start).take limit).filter pred,
   if start + limit < users.length then some (start + limit) else none)

/-- `handler` of `src/backend/src/handlers/users/getUsers.ts` (the cited
revision): root admins scan all users; non-root callers scan with the
accessible-roles filter; the returned page is the scan result as-is — the
caller's own record is **not** removed. -/
def getUsersHandlerA (caller : Caller) (users : List User) (g : List Role)
    (limit start : Nat) : List User × Option Nat :=
  if caller.isRootAdmin then scanUsers users (fun _ => true) limit start
  else
    let acc := accessibleRoles g caller.roles
    if acc = ∅ then ([], none)
    else scanUsers users (fun u => u.roles.any (fun r => decide (r ∈ acc))) limit start

/-- `handler` of the getUsers.ts revision that excludes the caller
(repository dump part_012): it refuses a caller without an e-mail claim
(`none`), scans one extra item (`limit + 1`), filters the caller's own
record out of the page, truncates back to `limit`, and keeps the scan's
resume cursor. -/
def getUsersHandlerB (caller : Caller) (users : List User) (g : List Role)
    (limit start : Nat) : Option (List User × Option Nat) :=
  if caller.email = "" then none
  else
    let internalLimit := limit + 1
    if caller.isRootAdmin then
      let scanned := scanUsers users (fun _ => true) internalLimit start
      let items := scanned.1.filter (fun u => u.email != caller.email)
      some (if items.length > limit then items.take limit else items, scanned.2)
    else
      let acc := accessibleRoles g caller.roles
      if acc = ∅ then some ([], none)
      else
        let scanned := scanUsers users
          (fun u => u.roles.any (fun r => decide (r ∈ acc))) internalLimit start
        let items := scanned.1.filter (fun u => u.email != caller.email)
        some (if items.length > limit then items.take limit else items, scanned.2)

/-- `countAll` of summary.ts: an exhaustive paginated `COUNT` scan. -/
def countAllRoles (g : List Role) : Nat := g.length

def countAllUsers (users : List User) : Nat := users.length

/-- `countUsersBy` of summary.ts: counts the users whose `roles` list
contains any of the given ids (`contains(roles, :ri)` joined by `OR`);
an empty id list short-circuits to `0` without a scan. -/
def countUsersBy (users : List User) (ids : List String) : Nat :=
  if ids = [] then 0
  else (users.filter (fun u => ids.any (fun r => u.roles.contains r))).length

/-- `handler` of summary.ts (repository dump part_010): root admins get the
two table totals; other callers get the size of `getDescendants` as
`roleCount` and, for `userCount`, the count of users holding any of the
caller's own roles or their descendants
(`countUsersBy([...userRoles, ...descendants])`). -/
def summaryHandler (caller : Caller) (g : List Role) (users : List User) :
    Nat × Nat :=
  if caller.isRootAdmin then (countAllRoles g, countAllUsers users)
  else
    let descendants := getDescendantsList g caller.roles
    (descendants.length, countUsersBy users (caller.roles ++ descendants))

/-! ## Claims -/

/-- **C1, counterexample.**  The cited `createRole.ts` revision
(`src/backend/src/handlers/roles/createRole.ts`) runs no permission logic
at all: a request with an absent `parentId` (i.e. parent `TOP_LEVEL`)
passes validation and persists the role — it does not fail, no matter the
caller — refuting "createRole with parent P fails when P is the TOP_LEVEL
sentinel" for non-root callers. -/
theorem claim1_counterexample :
    createRoleOldHandler ⟨"City", "Cape Town", none⟩ "new-id" [] =
      (.created ⟨"new-id", "City", "Cape Town", none⟩,
       [⟨"new-id", "City", "Cape Town", none⟩]) := by
  rfl

/-- **C1, amended.**  For the createRole.ts revision that does carry the
permission check (repository dump part_013): a non-root caller with valid
inputs is refused when the effective parent is `TOP_LEVEL`, and otherwise
the role is created iff the caller *directly holds* the parent
(`P ∈ caller.roles`); the manageable set is never consulted. -/
theorem claim1_amended (caller : Caller) (body : CreateRoleBody) (newId : String)
    (g : List Role) (hroot : caller.isRootAdmin = false)
    (htype : jsTrim body.roleType ≠ "") (hname : jsTrim body.name ≠ "") :
    (effParent body.parentId = topLevel →
      (createRoleHandler caller body newId g).1 = .forbiddenTopLevel) ∧
    (effParent body.parentId ≠ topLevel →
      ((∃ r, (createRoleHandler caller body newId g).1 = .created r) ↔
        effParent body.parentId ∈ caller.roles)) := by
  constructor
  · intro hP
    simp [createRoleHandler, htype, hname, hroot, hP]
  · intro hP
    by_cases hmem : effParent body.parentId ∈ caller.roles
    · constructor
      · intro _
        exact hmem
      · intro _
        refine ⟨⟨newId, jsTrim body.roleType, jsTrim body.name,
          some (effParent body.parentId)⟩, ?_⟩
        simp [createRoleHandler, htype, hname, hroot, hP, hmem]
    · constructor
      · rintro ⟨r, hr⟩
        exfalso
        simp [createRoleHandler, htype, hname, hroot, hP, hmem] at hr
      · intro h
        exact absurd h hmem

/-- **C1, witness** for the amended theorem, at a caller holding `"B"`:
creating under `"B"` succeeds, creating top-level is refused. -/
theorem claim1_witness :
    ((effParent (some "B") = topLevel →
      (createRoleHandler ⟨"b@x", ["B"], false⟩ ⟨"City", "CT", some "B"⟩ "id1" []).1 =
        .forbiddenTopLevel) ∧
     (effParent (some "B") ≠ topLevel →
      ((∃ r, (createRoleHandler ⟨"b@x", ["B"], false⟩ ⟨"City", "CT", some "B"⟩ "id1" []).1 =
          .created r) ↔ effParent (some "B") ∈ ["B"]))) := by
  exact claim1_amended ⟨"b@x", ["B"], false⟩ ⟨"City", "CT", some "B"⟩ "id1" []
    (by decide) (by decide) (by decide)

/-- **C2, counterexample.**  The cited `getUsers.ts` revision returns the
scan page as-is; a root-admin caller scanning a table that holds their own
record receives that record back, refuting "the page never contains a
record whose key equals the caller's own identity". -/
theorem claim2_counterexample :
    ∃ u ∈ (getUsersHandlerA ⟨"root@system.app", [], true⟩
        [⟨"root@system.app", "Root Admin", ["SYSTEM_ROOT"], true⟩] [] 50 0).1,
      u.email = "root@system.app" := by
  exact ⟨⟨"root@system.app", "Root Admin", ["SYSTEM_ROOT"], true⟩, by decide, rfl⟩

/-- **C2, amended.**  The exclusion holds for the getUsers.ts revision that
filters the caller out (repository dump part_012): whenever that handler
returns a page, no record on it carries the caller's e-mail. -/
theorem claim2_amended (caller : Caller) (users : List User) (g : List Role)
    (limit start : Nat) (page : List User × Option Nat)
    (hres : getUsersHandlerB caller users g limit start = some page) :
    ∀ u ∈ page.1, u.email ≠ caller.email := by
  intro u hu
  by_cases hemail : caller.email = ""
  · simp [getUsersHandlerB, hemail] at hres
  rw [getUsersHandlerB, if_neg hemail] at hres
  by_cases hadmin : caller.isRootAdmin
  · rw [if_pos hadmin] at hres
    obtain ⟨rfl⟩ := Option.some.inj hres
    have hu' : u ∈ (scanUsers users (fun _ => true) (limit + 1) start).1.filter
        (fun v => v.email != caller.email) := by
      by_cases hlen : ((scanUsers users (fun _ => true) (limit + 1) start).1.filter
          (fun v => v.email != caller.email)).length > limit
      · simp only [hlen, if_pos] at hu
        exact List.mem_of_mem_take (by simpa using hu)
      · simpa [hlen] using hu
    have := (List.mem_filter.mp hu').2
    simpa using this
  · rw [if_neg hadmin] at hres
    by_cases hacc : accessibleRoles g caller.roles = ∅
    · rw [if_pos hacc] at hres
      obtain ⟨rfl⟩ := Option.some.inj hres
      simp at hu
    · rw [if_neg hacc] at hres
      obtain ⟨rfl⟩ := Option.some.inj hres
      set scanned := scanUsers users
        (fun u => u.roles.any (fun r => decide (r ∈ accessibleRoles g caller.roles)))
        (limit + 1) start with hscanned
      have hu' : u ∈ scanned.1.filter (fun v => v.email != caller.email) := by
        by_cases hlen : (scanned.1.filter (fun v => v.email != caller.email)).length > limit
        · simp only [hlen, if_pos] at hu
          exact List.mem_of_mem_take (by simpa using hu)
        · simpa [hlen] using hu
      have := (List.mem_filter.mp hu').2
      simpa using this

/-- **C2, witness** for the amended theorem: with two stored users and the
first one calling, the returned page's sole record is the second user,
whose e-mail differs from the caller's. -/
theorem claim2_witness :
    (⟨"b@x", "B", ["R"], false⟩ : User).email ≠ "a@x" := by
  exact claim2_amended ⟨"a@x", [], true⟩
    [⟨"a@x", "A", ["R"], false⟩, ⟨"b@x", "B", ["R"], false⟩] [] 50 0
    ([⟨"b@x", "B", ["R"], false⟩], none) (by decide)
    ⟨"b@x", "B", ["R"], false⟩ (by decide)

/-- **C10 (confirmed).**  `getUserDetails` consults no caller context (the
embedding takes none): for any non-empty e-mail the response is the 200
payload with the stored role ids and root flag, and for an absent e-mail it
is still a 200 payload with empty roles, `isRootAdmin = false`,
`found = false` — never a NotFound error. -/
theorem claim10_getUserDetails (users : List User) (email : String)
    (hne : email ≠ "") :
    (∀ u, users.find? (fun v => v.email == email) = some u →
      getUserDetailsHandler users email = .ok u.email u.name u.roles u.isRootAdmin true) ∧
    (users.find? (fun v => v.email == email) = none →
      getUserDetailsHandler users email = .ok email "" [] false false) := by
  constructor
  · intro u hu
    simp [getUserDetailsHandler, hne, hu]
  · intro hnone
    simp [getUserDetailsHandler, hne, hnone]

/-- **C10, witness**: a present and an absent e-mail against a one-user
store. -/
theorem claim10_witness :
    getUserDetailsHandler [⟨"a@x", "A", ["R"], false⟩] "missing@x" =
      .ok "missing@x" "" [] false false := by
  exact (claim10_getUserDetails [⟨"a@x", "A", ["R"], false⟩] "missing@x"
    (by decide)).2 (by decide)

/-- **C7 (confirmed).**  For every caller that reaches the deletion stage
(root admin, or the target in the caller's downstream set — root admins
included, nothing bypasses the child check): `deleteRole` answers the 409
Conflict carrying exactly the offending child role ids whenever the target
has children, and deletes the record otherwise. -/
theorem claim7_deleteRole_conflict (g : List Role) (caller : Caller) (id : String)
    (hne : id ≠ "") (hnotroot : id ≠ rootRoleId)
    (hfound : (g.find? (fun r => r.id == id)).isSome)
    (hperm : caller.isRootAdmin = true ∨ id ∈ buildManageableRoles g caller.roles) :
    (childRoles g id ≠ [] →
      deleteRoleHandler caller id g = (.conflict ((childRoles g id).map Role.id), g)) ∧
    (childRoles g id = [] →
      deleteRoleHandler caller id g = (.deleted, g.filter (fun r => r.id != id))) := by
  obtain ⟨tr, htr⟩ := Option.isSome_iff_exists.mp hfound
  constructor
  · intro hchild
    have hlen : (childRoles g id).length > 0 := List.length_pos.mpr hchild
    simp [deleteRoleHandler, hne, hnotroot, htr, hperm, hlen]
  · intro hchild
    simp [deleteRoleHandler, hne, hnotroot, htr, hperm, hchild]

/-- **C7, witness**: a root-admin caller deleting `"B"`, which has the child
`"C"`, receives the Conflict listing `["C"]`. -/
theorem claim7_witness :
    deleteRoleHandler ⟨"r@x", [], true⟩ "B"
        [⟨"B", "t", "nB", some "ROOT"⟩, ⟨"C", "t", "nC", some "B"⟩] =
      (.conflict ["C"],
       [⟨"B", "t", "nB", some "ROOT"⟩, ⟨"C", "t", "nC", some "B"⟩]) := by
  exact (claim7_deleteRole_conflict
    [⟨"B", "t", "nB", some "ROOT"⟩, ⟨"C", "t", "nC", some "B"⟩]
    ⟨"r@x", [], true⟩ "B" (by decide) (by decide) (by decide) (Or.inl rfl)).1
    (by decide)

/-- **C9 (confirmed).**  `deleteUser` is an ordered two-step deletion: when
the DynamoDB delete of the directory record fails the handler reports the
500 failure with the store untouched and never attempts the Cognito delete
(third component `false`); after a successful directory delete a Cognito
"user not found" is treated as full success, and any other Cognito failure
yields the 207 multi-status (partial success), not an overall failure. -/
theorem claim9_deleteUser_saga (caller : Caller) (email : String)
    (users : List User) (g : List Role) (dynamoOk : Bool) (cog : CognitoOutcome)
    (tu : User) (hne : email ≠ "") (hnr : email ≠ rootAdminEmail)
    (hfound : users.find? (fun u => u.email == email) = some tu)
    (hperm : caller.isRootAdmin = true ∨
      (tu.roles ≠ [] ∧ ∀ r ∈ tu.roles, r ∈ manageableRolesDeleteUser g caller.roles)) :
    (dynamoOk = false →
      deleteUserHandler caller email users g dynamoOk cog = (.dbError, users, false)) ∧
    (dynamoOk = true → cog = .userNotFound →
      deleteUserHandler caller email users g dynamoOk cog =
        (.fullyDeleted, users.filter (fun u => u.email != email), true)) ∧
    (dynamoOk = true → cog = .otherError →
      deleteUserHandler caller email users g dynamoOk cog =
        (.multiStatus, users.filter (fun u => u.email != email), true)) := by
  have hnoroles : ¬(caller.isRootAdmin = false ∧ tu.roles = []) := by
    rcases hperm with hadmin | ⟨hroles, _⟩
    · simp [hadmin]
    · simp [hroles]
  have hmanage : ¬(caller.isRootAdmin = false ∧
      ∃ x ∈ tu.roles, x ∉ manageableRolesDeleteUser g caller.roles) := by
    rcases hperm with hadmin | ⟨_, hall⟩
    · simp [hadmin]
    · push_neg
      intro _
      exact hall
  refine ⟨?_, ?_, ?_⟩
  · intro hdyn
    subst hdyn
    simp [deleteUserHandler, hne, hnr, hfound, hnoroles, hmanage]
  · intro hdyn hcog
    subst hdyn hcog
    simp [deleteUserHandler, hne, hnr, hfound, hnoroles, hmanage]
  · intro hdyn hcog
    subst hdyn hcog
    simp [deleteUserHandler, hne, hnr, hfound, hnoroles, hmanage]

/-- **C9, witness**: a root-admin caller deleting `"a@x"` while the Cognito
delete fails with an unexpected error: the directory record is gone and the
outcome is the 207 multi-status. -/
theorem claim9_witness :
    deleteUserHandler ⟨"r@x", [], true⟩ "a@x" [⟨"a@x", "A", ["R"], false⟩] []
        true .otherError = (.multiStatus, [], true) := by
  exact (claim9_deleteUser_saga ⟨"r@x", [], true⟩ "a@x"
    [⟨"a@x", "A", ["R"], false⟩] [] true .otherError ⟨"a@x", "A", ["R"], false⟩
    (by decide) (by decide) (by decide) (Or.inl rfl)).2.2 rfl rfl

/-- Searching a mapped user list by e-mail, when the map preserves e-mails,
is mapping the search result. -/
theorem find?_map_email (f : User → User) (hf : ∀ u, (f u).email = u.email)
    (e : String) :
    ∀ users : List User,
      (users.map f).find? (fun v => v.email == e) =
        (users.find? (fun v => v.email == e)).map f := by
  intro users
  induction users with
  | nil => rfl
  | cons u rest ih =>
    by_cases hu : u.email = e
    · simp [List.find?, hf u, hu]
    · simp only [List.map_cons, List.find?]
      rw [hf u]
      have : (u.email == e) = false := by simp [hu]
      rw [this]
      exact ih

/-- Sorted-equal string lists are permutations of each other (the JS
`JSON.stringify(a.sort()) === JSON.stringify(b.sort())` comparison is an
order-insensitive multiset comparison). -/
theorem perm_of_sortRoles_eq {a b : List String} (h : sortRoles a = sortRoles b) :
    a.Perm b := by
  have ha : (sortRoles a).Perm a := List.perm_insertionSort _ a
  have hb : (sortRoles b).Perm b := List.perm_insertionSort _ b
  exact (ha.symm.trans (h ▸ hb))

/-- **C3, amended.**  `updateUser` never alters the root-admin user's role
assignment: whatever the outcome of an update aimed at `root@system.app`,
the stored record keeps a role list that is a permutation of the previous
one (the guard refuses genuine changes with 403; a passing request can only
reorder), and `isRootAdmin` is preserved.  `createUser`, however, violates
the claim — see the counterexample. -/
theorem claim3_amended (caller : Caller) (newName : String)
    (newRoles : List String) (users : List User) (g : List Role) (u : User)
    (hfind : users.find? (fun v => v.email == rootAdminEmail) = some u) :
    ∃ u', ((updateUserHandler caller rootAdminEmail newName newRoles users g).2).find?
        (fun v => v.email == rootAdminEmail) = some u' ∧
      u'.roles.Perm u.roles ∧ u'.isRootAdmin = u.isRootAdmin := by
  have hne : rootAdminEmail ≠ "" := by decide
  by_cases hname : jsTrim newName = ""
  · refine ⟨u, ?_, List.Perm.refl _, rfl⟩
    simp [updateUserHandler, hne, hname, hfind]
  by_cases hroles : newRoles = []
  · refine ⟨u, ?_, List.Perm.refl _, rfl⟩
    simp [updateUserHandler, hne, hname, hroles, hfind]
  by_cases hsort : sortRoles u.roles ≠ sortRoles newRoles
  · refine ⟨u, ?_, List.Perm.refl _, rfl⟩
    simp [updateUserHandler, hne, hname, hroles, hfind, hsort]
  push_neg at hsort
  have hperm : newRoles.Perm u.roles := (perm_of_sortRoles_eq hsort).symm
  have huemail : u.email = rootAdminEmail := by
    have := List.find?_some hfind
    simpa using this
  by_cases hallow : caller.isRootAdmin = true ∨
      (u.roles ≠ [] ∧ (∀ r ∈ u.roles, r ∈ buildManageableRoles g caller.roles) ∧
        (∀ r ∈ newRoles, r ∈ buildManageableRoles g caller.roles))
  · refine ⟨⟨u.email, newName, newRoles, u.isRootAdmin⟩, ?_, hperm, rfl⟩
    have hmap := find?_map_email
      (fun v => if v.email = rootAdminEmail then
        { v with name := newName, roles := newRoles } else v)
      (fun v => by by_cases hv : v.email = rootAdminEmail <;> simp [hv])
      rootAdminEmail users
    have hresult : (updateUserHandler caller rootAdminEmail newName newRoles users g).2 =
        users.map (fun v => if v.email = rootAdminEmail then
          { v with name := newName, roles := newRoles } else v) := by
      simp [updateUserHandler, hne, hname, hroles, hfind, hsort, hallow]
    rw [hresult, hmap, hfind]
    simp [huemail]
  · refine ⟨u, ?_, List.Perm.refl _, rfl⟩
    simp only [updateUserHandler, if_neg hne, if_neg hname, if_neg hroles, hfind]
    rw [if_neg (by simp [hsort]), if_neg hallow]
    exact hfind

/-- **C3, witness** for the amended theorem: a root-admin caller renaming
the seeded root-admin record with the identical role list; the stored roles
stay `["SYSTEM_ROOT"]`. -/
theorem claim3_witness :
    ∃ u', ((updateUserHandler ⟨"root@system.app", [], true⟩ rootAdminEmail
        "New Name" ["SYSTEM_ROOT"]
        [⟨"root@system.app", "Root Admin", ["SYSTEM_ROOT"], true⟩] []).2).find?
        (fun v => v.email == rootAdminEmail) = some u' ∧
      u'.roles.Perm ["SYSTEM_ROOT"] ∧ u'.isRootAdmin = true := by
  exact claim3_amended ⟨"root@system.app", [], true⟩ "New Name" ["SYSTEM_ROOT"]
    [⟨"root@system.app", "Root Admin", ["SYSTEM_ROOT"], true⟩] []
    ⟨"root@system.app", "Root Admin", ["SYSTEM_ROOT"], true⟩ (by decide)

/-- **C3, counterexample.**  `createUser`'s upsert has no root-admin guard:
a root-admin caller "creating" a user with the root-admin e-mail replaces
the seeded record wholesale — the stored role set changes from
`["SYSTEM_ROOT"]` to `["OUTSIDE"]` (and even `isRootAdmin` is wiped to
`false`), refuting "neither updateUser nor createUser's upsert on the
root-admin email ever alters or replaces the root-admin user's role set". -/
theorem claim3_counterexample :
    (((createUserHandler ⟨"root@system.app", [], true⟩
        ⟨"root@system.app", "Imposter", ["OUTSIDE"]⟩
        [⟨"root@system.app", "Root Admin", ["SYSTEM_ROOT"], true⟩] []).2).find?
        (fun v => v.email == rootAdminEmail)) =
      some ⟨"root@system.app", "Imposter", ["OUTSIDE"], false⟩ ∧
    (["OUTSIDE"] : List String) ≠ ["SYSTEM_ROOT"] := by
  constructor
  · rfl
  · decide

/-- **C4, counterexample.**  Caller holding `"B"`; the graph is
`B (top) → C`, `C`'s current parent is `B` and the requested new parent is
`B` again.  `B` is *not* in the caller's manageable (strict-descendant) set
`{C}`, so the claim predicts denial, but the handler accepts the caller's
*own* role as current/new parent (`callerRoles.includes(p) ||
assignableRoles.has(p)`) and performs the update. -/
theorem claim4_counterexample :
    (updateRoleHandler ⟨"b@x", ["B"], false⟩ "C" "C2" "t" (some "B")
        [⟨"B", "t", "nB", some "ROOT"⟩, ⟨"C", "t", "nC", some "B"⟩]).1 =
      .updated ⟨"C", "t", "C2", some "B"⟩ := by
  rfl

/-- **C4, amended.**  For a non-root caller and inputs passing the
validation/existence gates, the update is denied whenever the current or
the new parent is `TOP_LEVEL`, and otherwise goes through exactly when both
parents lie in `caller.roleIds ∪ manageable set` — the caller's *directly
held* roles are accepted too, not only the strict descendants. -/
theorem claim4_amended (caller : Caller) (id newName newRoleType : String)
    (pin : Option String) (g : List Role) (ex : Role)
    (hroot : caller.isRootAdmin = false) (hid : id ≠ "")
    (hnotroot : id ≠ rootRoleId) (hname : jsTrim newName ≠ "")
    (htype : jsTrim newRoleType ≠ "") (hself : id ≠ effParent pin)
    (hfound : g.find? (fun r => r.id == id) = some ex)
    (hparent : effParent pin ≠ topLevel →
      (g.find? (fun r => r.id == effParent pin)).isSome) :
    ((effParent ex.parentId = topLevel ∨ effParent pin = topLevel) →
      (updateRoleHandler caller id newName newRoleType pin g).1 = .forbidden) ∧
    ((∃ r, (updateRoleHandler caller id newName newRoleType pin g).1 = .updated r) ↔
      (effParent ex.parentId ≠ topLevel ∧ effParent pin ≠ topLevel ∧
       (effParent ex.parentId ∈ caller.roles ∨
        effParent ex.parentId ∈ buildManageableRoles g caller.roles) ∧
       (effParent pin ∈ caller.roles ∨
        effParent pin ∈ buildManageableRoles g caller.roles))) := by
  have hval : ¬(jsTrim newName = "" ∨ jsTrim newRoleType = "") := by
    push_neg
    exact ⟨hname, htype⟩
  have hpexists : ¬(effParent pin ≠ topLevel ∧
      g.find? (fun r => r.id == effParent pin) = none) := by
    rintro ⟨hp, hnone⟩
    have := hparent hp
    rw [hnone] at this
    simp at this
  by_cases hok : (effParent ex.parentId ≠ topLevel ∧
        (effParent ex.parentId ∈ caller.roles ∨
         effParent ex.parentId ∈ buildManageableRoles g caller.roles)) ∧
      (effParent pin ≠ topLevel ∧
        (effParent pin ∈ caller.roles ∨
         effParent pin ∈ buildManageableRoles g caller.roles))
  · have hres : (updateRoleHandler caller id newName newRoleType pin g).1 =
        .updated ⟨ex.id, newRoleType, newName, some (effParent pin)⟩ := by
      simp only [updateRoleHandler, if_neg hid, if_neg hnotroot, if_neg hval,
        if_neg hself, hfound]
      rw [if_neg hpexists, if_pos (Or.inr hok)]
    constructor
    · rintro (htop | htop)
      · exact absurd htop hok.1.1
      · exact absurd htop hok.2.1
    · constructor
      · intro _
        exact ⟨hok.1.1, hok.2.1, hok.1.2, hok.2.2⟩
      · intro _
        exact ⟨_, hres⟩
  · have hdenied : ¬(caller.isRootAdmin = true ∨
        ((effParent ex.parentId ≠ topLevel ∧
          (effParent ex.parentId ∈ caller.roles ∨
           effParent ex.parentId ∈ buildManageableRoles g caller.roles)) ∧
         (effParent pin ≠ topLevel ∧
          (effParent pin ∈ caller.roles ∨
           effParent pin ∈ buildManageableRoles g caller.roles)))) := by
      rintro (h | h)
      · rw [hroot] at h
        exact absurd h (by simp)
      · exact hok h
    have hres : (updateRoleHandler caller id newName newRoleType pin g).1 =
        .forbidden := by
      simp only [updateRoleHandler, if_neg hid, if_neg hnotroot, if_neg hval,
        if_neg hself, hfound]
      rw [if_neg hpexists, if_neg hdenied]
    constructor
    · intro _
      exact hres
    · constructor
      · rintro ⟨r, hr⟩
        rw [hres] at hr
        exact absurd hr (by simp)
      · rintro ⟨h1, h2, h3, h4⟩
        exact absurd ⟨⟨h1, h3⟩, ⟨h2, h4⟩⟩ hok

/-- **C4, witness** for the amended theorem, in the `B (top) → C → D`
graph with the caller holding `"B"`: moving `"D"` (current parent `C`, new
parent `C`) is allowed since `C` is a strict descendant of `B`. -/
theorem claim4_witness :
    ∃ r, (updateRoleHandler ⟨"b@x", ["B"], false⟩ "D" "D2" "t" (some "C")
        [⟨"B", "t", "nB", some "ROOT"⟩, ⟨"C", "t", "nC", some "B"⟩,
         ⟨"D", "t", "nD", some "C"⟩]).1 = .updated r := by
  refine ((claim4_amended ⟨"b@x", ["B"], false⟩ "D" "D2" "t" (some "C")
    [⟨"B", "t", "nB", some "ROOT"⟩, ⟨"C", "t", "nC", some "B"⟩,
     ⟨"D", "t", "nD", some "C"⟩] ⟨"D", "t", "nD", some "C"⟩
    rfl (by decide) (by decide) (by decide) (by decide) (by decide)
    (by decide) (fun _ => by decide)).2).mpr ?_
  refine ⟨by decide, by decide, Or.inr (by decide), Or.inr (by decide)⟩

/-- **C6 (confirmed).**  Both traversal variants (with and without the
`!roleId` falsy-guard — deleteRole.ts's `buildManageableRoles` and
summary.ts's `getDescendants` among them) complete within the explicit
finite step budget `visitFuel` on *every* stored graph, cyclic or
self-referential ones included, and the expansion trace is duplicate-free:
the `visited` set lets each role's children be fetched at most once. -/
theorem claim6_traversal_terminates (g : List Role) (skipEmpty : Bool)
    (seeds : List String) :
    ∃ tr, runVisit g skipEmpty (visitFuel g seeds) seeds ∅ = some tr ∧ tr.Nodup := by
  exact ⟨visitTrace g skipEmpty seeds, runVisit_visitTrace g skipEmpty seeds,
    (runVisit_nodup g skipEmpty _ seeds ∅ _ (runVisit_visitTrace g skipEmpty seeds)).1⟩

/-- **C5, counterexample.**  On the self-referential graph whose single
role `"r"` is stored with `parentId = "r"`, the deleteRole.ts
`buildManageableRoles` traversal seeded with `{r}` *does* contain `r`
itself (the child loop adds `r` back as a child of `r`), refuting "the
descendant set computed from seed set `{r}` never contains `r`" for cyclic
graphs. -/
theorem claim5_counterexample :
    "r" ∈ buildManageableRoles [⟨"r", "t", "n", some "r"⟩] ["r"] := by
  decide

/-- **C5, amended.**  The summary.ts `getDescendants` traversal removes the
seeds at the end and therefore never returns a seed, on any graph; the
deleteRole.ts-style manageable-set traversal excludes the seed `r` exactly
when the stored graph has no (downward) cycle through `r` — a cycle can put
`r` into the computed set, as the counterexample shows. -/
theorem claim5_amended :
    (∀ (g : List Role) (seeds : List String) (r : String), r ∈ seeds →
      r ∉ getDescendants g seeds) ∧
    (∀ (g : List Role) (r : String), ¬ Relation.TransGen (step g) r r →
      r ∉ buildManageableRoles g [r]) := by
  constructor
  · intro g seeds r hr
    simp [getDescendants, hr]
  · intro g r hcyc hmem
    obtain ⟨s, hs, htg⟩ := mem_buildManageableRoles_transGen g [r] r hmem
    simp only [List.mem_singleton] at hs
    subst hs
    exact hcyc htg

/-- **C5, witness** for the amended theorem: the seed survives a self-loop
under `getDescendants`, and on the empty (trivially acyclic) graph the
manageable set of `{a}` misses `a`. -/
theorem claim5_witness :
    "a" ∉ getDescendants [⟨"a", "t", "n", some "a"⟩] ["a"] ∧
    "a" ∉ buildManageableRoles ([] : List Role) ["a"] := by
  constructor
  · exact claim5_amended.1 [⟨"a", "t", "n", some "a"⟩] ["a"] "a" (by decide)
  · refine claim5_amended.2 [] "a" ?_
    intro h
    cases h with
    | single h1 => simp [step, childIds] at h1
    | tail _ h1 => simp [step, childIds] at h1

theorem visitTrace_nodup (g : List Role) (skipEmpty : Bool) (seeds : List String) :
    (visitTrace g skipEmpty seeds).Nodup :=
  (runVisit_nodup g skipEmpty _ seeds ∅ _ (runVisit_visitTrace g skipEmpty seeds)).1

theorem mem_getDescendantsList (g : List Role) (roles : List String) (x : String) :
    x ∈ getDescendantsList g roles ↔ x ∈ getDescendants g roles := by
  simp [getDescendantsList, getDescendants, List.mem_filter, Finset.mem_sdiff]

theorem getDescendantsList_length (g : List Role) (roles : List String) :
    (getDescendantsList g roles).length = (getDescendants g roles).card := by
  have hset : (getDescendantsList g roles).toFinset = getDescendants g roles := by
    ext x
    rw [List.mem_toFinset]
    exact mem_getDescendantsList g roles x
  have hnd : (getDescendantsList g roles).Nodup :=
    (visitTrace_nodup g false roles).filter _
  rw [← hset, List.toFinset_card_of_nodup hnd]

/-- The set computed by summary.ts's `getDescendants` is exactly the strict
descendants of the seed roles, the seeds themselves excluded. -/
theorem getDescendants_spec (g : List Role) (roles : List String) :
    (↑(getDescendants g roles) : Set String) =
      {x | (∃ s ∈ roles, Relation.TransGen (step g) s x) ∧ x ∉ roles} := by
  ext x
  simp only [Finset.coe_sdiff, Set.mem_diff, Finset.mem_coe, List.mem_toFinset,
    Set.mem_setOf_eq, getDescendants]
  rw [mem_visitTrace_iff]
  constructor
  · rintro ⟨⟨s, hs, hreach⟩, hnot⟩
    rcases Relation.reflTransGen_iff_eq_or_transGen.mp hreach with rfl | htg
    · exact absurd hs hnot
    · exact ⟨⟨s, hs, htg⟩, hnot⟩
  · rintro ⟨⟨s, hs, htg⟩, hnot⟩
    exact ⟨⟨s, hs, htg.to_reflTransGen⟩, hnot⟩

theorem bool_eq_of_iff {a b : Bool} (h : a = true ↔ b = true) : a = b := by
  cases a <;> cases b <;> simp_all

/-- `countUsersBy` over the concatenated id list counts exactly the users
whose role list meets the given id lists. -/
theorem countUsersBy_filter (users : List User) (roles desc : List String) :
    countUsersBy users (roles ++ desc) =
      (users.filter (fun u => u.roles.any
        (fun r => decide (r ∈ roles ∨ r ∈ desc)))).length := by
  by_cases h : roles ++ desc = ([] : List String)
  · obtain ⟨h1, h2⟩ := List.append_eq_nil.mp h
    subst h1 h2
    have hfil : users.filter (fun u => u.roles.any fun _ => false) = [] := by
      induction users with
      | nil => rfl
      | cons u rest ihu => simp [ihu]
    simp [countUsersBy, hfil]
  · rw [countUsersBy, if_neg h]
    congr 1
    apply List.filter_congr
    intro u _
    apply bool_eq_of_iff
    simp only [List.any_eq_true, List.mem_append, decide_eq_true_eq]
    constructor
    · rintro ⟨r, hr | hr, hmem⟩
      · exact ⟨r, List.mem_of_elem_eq_true hmem, Or.inl hr⟩
      · exact ⟨r, List.mem_of_elem_eq_true hmem, Or.inr hr⟩
    · rintro ⟨r, hmem, hr | hr⟩
      · exact ⟨r, Or.inl hr, List.elem_eq_true_of_mem hmem⟩
      · exact ⟨r, Or.inr hr, List.elem_eq_true_of_mem hmem⟩

/-- **C8 (confirmed).**  For every non-root-admin caller the summary
endpoint returns `roleCount` = the size of the manageable set — whose
members are exactly the strict descendants of the caller's roles with the
caller's own roles excluded — and `userCount` = the number of stored users
whose role list intersects `caller.roles ∪ manageable set`. -/
theorem claim8_summary_counts (g : List Role) (users : List User)
    (caller : Caller) (hroot : caller.isRootAdmin = false) :
    (↑(getDescendants g caller.roles) : Set String) =
      {x | (∃ s ∈ caller.roles, Relation.TransGen (step g) s x) ∧
        x ∉ caller.roles} ∧
    (summaryHandler caller g users).1 = (getDescendants g caller.roles).card ∧
    (summaryHandler caller g users).2 =
      (users.filter (fun u => u.roles.any (fun r =>
        decide (r ∈ caller.roles ∨ r ∈ getDescendants g caller.roles)))).length := by
  refine ⟨getDescendants_spec g caller.roles, ?_, ?_⟩
  · simp [summaryHandler, hroot, getDescendantsList_length]
  · simp only [summaryHandler, hroot, Bool.false_eq_true, if_false]
    rw [countUsersBy_filter]
    congr 1
    apply List.filter_congr
    intro u _
    congr 1
    funext r
    apply bool_eq_of_iff
    simp only [decide_eq_true_eq]
    rw [mem_getDescendantsList]

/-- **C8, witness**: caller holding `"B"` over `B (top) → C` with two
users; `roleCount = 1` (the set `{C}`) and `userCount = 2` (both users'
roles meet `{B, C}`). -/
theorem claim8_witness :
    (↑(getDescendants [⟨"B", "t", "nB", some "ROOT"⟩, ⟨"C", "t", "nC", some "B"⟩]
        ["B"]) : Set String) =
      {x | (∃ s ∈ ["B"], Relation.TransGen
          (step [⟨"B", "t", "nB", some "ROOT"⟩, ⟨"C", "t", "nC", some "B"⟩]) s x) ∧
        x ∉ ["B"]} ∧
    (summaryHandler ⟨"b@x", ["B"], false⟩
      [⟨"B", "t", "nB", some "ROOT"⟩, ⟨"C", "t", "nC", some "B"⟩]
      [⟨"u@x", "U", ["C"], false⟩, ⟨"b@x", "B", ["B"], false⟩]).1 =
      (getDescendants [⟨"B", "t", "nB", some "ROOT"⟩, ⟨"C", "t", "nC", some "B"⟩]
        ["B"]).card ∧
    (summaryHandler ⟨"b@x", ["B"], false⟩
      [⟨"B", "t", "nB", some "ROOT"⟩, ⟨"C", "t", "nC", some "B"⟩]
      [⟨"u@x", "U", ["C"], false⟩, ⟨"b@x", "B", ["B"], false⟩]).2 =
      (([⟨"u@x", "U", ["C"], false⟩, ⟨"b@x", "B", ["B"], false⟩] : List User).filter
        (fun u => u.roles.any (fun r => decide (r ∈ ["B"] ∨
          r ∈ getDescendants [⟨"B", "t", "nB", some "ROOT"⟩,
            ⟨"C", "t", "nC", some "B"⟩] ["B"])))).length := by
  exact claim8_summary_counts
    [⟨"B", "t", "nB", some "ROOT"⟩, ⟨"C", "t", "nC", some "B"⟩]
    [⟨"u@x", "U", ["C"], false⟩, ⟨"b@x", "B", ["B"], false⟩]
    ⟨"b@x", ["B"], false⟩ rfl

end Ekko
